import Mathlib

/-!
Verification of the vue-mini template compiler front end
(`src/packages/compiler-core/src/parse.ts` and
`src/packages/compiler-core/src/compile.ts`).

The JavaScript strings handled by the parser are embedded as `List Char`;
every string primitive the source uses (`startsWith`, `slice`, `indexOf`,
`trim`, `toLowerCase`, regular-expression prefix matching) is modelled
explicitly below.  The parser's mutable context (an object holding the
remaining unconsumed source) is threaded functionally, and the mutually
recursive `parseChildren` / `parseElement` pair is given fuel-indexed
semantics: `PRes.out` means the fuel ran out, so a run that yields
`PRes.out` for every fuel diverges.
-/

namespace Vue

/-- JavaScript `source.startsWith(searchString)` (parse.ts `startsWith`). -/
def startsWith (source searchString : List Char) : Bool :=
  List.isPrefixOf searchString source

/-- JavaScript `s[i]`: `some c` when in range, `none` for `undefined`. -/
def charAt (s : List Char) (i : Nat) : Option Char :=
  s.get? i

/-- The character class `[a-z]` under the `i` flag: an ASCII letter. -/
def isAsciiLetter (c : Char) : Bool :=
  ('a' ≤ c && c ≤ 'z') || ('A' ≤ c && c ≤ 'Z')

/-- JavaScript `/[a-z]/i.test(s[i])`.  When `s[i]` is out of range the
argument is `undefined`, which `test` coerces to the string `"undefined"`;
that string contains ASCII letters, so the test is `true`. -/
def jsTestLetter : Option Char → Bool
  | some c => isAsciiLetter c
  | none => true

/-- A character the tag-name class `[^\r\n\t\f />]` accepts. -/
def isTagNameChar (c : Char) : Bool :=
  !(c = '\r' || c = '\n' || c = '\t' || c = '\x0c' || c = ' ' || c = '/' || c = '>')

/-- One character of JavaScript `String.prototype.toLowerCase`, restricted to
the ASCII range the tag grammar produces. -/
def lowerChar (c : Char) : Char := Char.toLower c

/-- `s.toLowerCase()` character by character. -/
def lowerList (s : List Char) : List Char := s.map lowerChar

/-- JavaScript `s.slice(a, b)` for non-negative bounds (clamped). -/
def jsSlice (s : List Char) (a b : Nat) : List Char :=
  (s.take b).drop a

/-- JavaScript `s.slice(0, e)` where `e` may be negative: a negative end
counts from the end of the string, clamped at 0. -/
def jsSliceTo (s : List Char) (e : Int) : List Char :=
  if 0 ≤ e then s.take e.toNat else s.take (s.length - (-e).toNat)

/-- Whitespace removed by JavaScript `trim` (the ASCII part). -/
def isJsSpace (c : Char) : Bool :=
  c = ' ' || c = '\t' || c = '\n' || c = '\r' || c = '\x0b' || c = '\x0c'

/-- JavaScript `s.trim()`. -/
def trimChars (s : List Char) : List Char :=
  ((s.dropWhile isJsSpace).reverse.dropWhile isJsSpace).reverse

/-- Search loop behind `indexOf`: first index (counting from `i`) at which
`pat` occurs in `s`, else `-1`. -/
def idxSearch (pat : List Char) : List Char → Nat → Int
  | [], i => if List.isPrefixOf pat [] then (i : Int) else -1
  | s@(_ :: t), i => if List.isPrefixOf pat s then (i : Int) else idxSearch pat t (i + 1)

/-- JavaScript `s.indexOf(pat, start)`: the least occurrence index that is
at least `start`, or `-1` when there is none. -/
def indexOfFrom (s pat : List Char) (start : Nat) : Int :=
  idxSearch pat (s.drop start) start

/-- The node-kind discriminant.  Modelled from the spec: the enumeration
module (`ast.ts`) is not part of the given source; the spec requires "a
finite discriminant set including at least root/element/interpolation/text
kinds". -/
inductive NodeTypes where
  | ROOT
  | ELEMENT
  | INTERPOLATION
  | TEXT
deriving DecidableEq, Repr

/-- The parser context: the remaining unconsumed suffix of the source
(parse.ts `createParserContext`). -/
structure Context where
  source : List Char
deriving DecidableEq, Repr

/-- parse.ts `advanceBy`: remove the first `n` characters of the remaining
source (JavaScript `slice(n)` clamps at the end). -/
def advanceBy (ctx : Context) (numberOfCharacters : Nat) : Context :=
  { source := ctx.source.drop numberOfCharacters }

/-- A node the parser can build: an element (tag name plus the `children`
value later assigned to it, `none` standing for JavaScript `undefined`) or
an interpolation.  The given source never actually constructs an
interpolation node, but the type records what `parseInterpolation` could
return. -/
inductive PNode : Type where
  | element (tag : List Char) (children : Option (List (Option PNode))) : PNode
  | interpolation (content : List Char) : PNode

/-- The tag name of a parsed node; the parser only reads `.tag` of element
nodes (the ancestors stack holds elements only). -/
def PNode.tagOf : PNode → List Char
  | .element t _ => t
  | .interpolation _ => []

/-- How a parse run can abort: the `MissingClosingTag` error `parseElement`
throws, or the TypeError raised in `parseTag` when the tag regular
expression does not match (`match[1]` of `null`). -/
inductive ParseErr : Type where
  | missingClosingTag (tag : List Char)
  | tagMatchFail
deriving DecidableEq, Repr

/-- Result of a fuel-indexed parser run: a value, a thrown error, or fuel
exhaustion (`out`).  A computation that is `out` at every fuel diverges. -/
inductive PRes (α : Type) : Type where
  | ok (a : α) : PRes α
  | err (e : ParseErr) : PRes α
  | out : PRes α

/-- parse.ts `startsWithEndTagOpen`: the source starts with `"</"` and the
next `tag.length` characters, lowercased, equal the lowercased tag. -/
def startsWithEndTagOpen (source : List Char) (tag : List Char) : Bool :=
  startsWith source ['<', '/'] &&
    lowerList (jsSlice source 2 (2 + tag.length)) = lowerList tag

/-- parse.ts `isEnd`.  Note the source has no empty-source check: when the
remaining source does not start with `"</"` — in particular when it is
exhausted — the function returns `undefined`, i.e. `false` here.  The
ancestors stack is kept innermost-first (JavaScript pushes at the end and
scans from the end; here elements are consed at the front and scanned from
the front, the same innermost-to-outermost order). -/
def isEnd (ctx : Context) (ancestors : List PNode) : Bool :=
  let s := ctx.source
  if startsWith s ['<', '/'] then
    ancestors.any fun a => startsWithEndTagOpen s a.tagOf
  else
    false

/-- The anchored prefix match of `/^<\/?([a-z][^\r\n\t\f />]*)/i` against a
source: `some (length of match[0], match[1])` or `none`. -/
def tagExec (s : List Char) : Option (Nat × List Char) :=
  match s with
  | '<' :: rest =>
    let p : Nat × List Char :=
      match rest with
      | '/' :: r => (1, r)
      | _ => (0, rest)
    match p.2 with
    | c :: cs =>
      if isAsciiLetter c then
        let run := cs.takeWhile isTagNameChar
        some (1 + p.1 + 1 + run.length, c :: run)
      else none
    | [] => none
  | _ => none

/-- parse.ts `parseTag` at `TagType.Start`: run the tag regular expression
(a failed match throws reading `match[1]`), advance past the match and one
further character (the `>`), and return the element node. -/
def parseTagStart (ctx : Context) : Except ParseErr (Context × PNode) :=
  match tagExec ctx.source with
  | none => Except.error ParseErr.tagMatchFail
  | some (len, tag) =>
    Except.ok (advanceBy (advanceBy ctx len) 1, PNode.element tag none)

/-- parse.ts `parseTag` at `TagType.End`: same cursor movement, no node. -/
def parseTagEnd (ctx : Context) : Except ParseErr Context :=
  match tagExec ctx.source with
  | none => Except.error ParseErr.tagMatchFail
  | some (len, _tag) =>
    Except.ok (advanceBy (advanceBy ctx len) 1)

/-- parse.ts `parseTextData`: take `length` characters and advance past
them, returning the raw text. -/
def parseTextData (ctx : Context) (length : Nat) : List Char × Context :=
  (ctx.source.take length, advanceBy ctx length)

/-- The two-character interpolation opener. -/
def openDelimiter : List Char := ['{', '{']

/-- The two-character interpolation closer. -/
def closeDelimiter : List Char := ['}', '}']

/-- parse.ts `parseInterpolation`: locate the closer from position 2 on,
advance past the opener, slice out the raw span, trim it — and then discard
the trimmed content: the function has no return statement, so its value is
`undefined` (`none`), never an interpolation node. -/
def parseInterpolation (ctx : Context) : Context × Option PNode :=
  let closeIndex : Int := indexOfFrom ctx.source closeDelimiter openDelimiter.length
  let ctx1 := advanceBy ctx 2
  let rawContentLength : Int := closeIndex - (openDelimiter.length : Int)
  let rawContent := jsSliceTo ctx1.source rawContentLength
  let pr := parseTextData ctx1 rawContent.length
  let _content := trimChars pr.1
  let ctx3 := advanceBy pr.2 closeDelimiter.length
  (ctx3, none)

/-- The `while (!isEnd(...))` loop of parse.ts `parseChildren`, with the
body of `parseElement` inlined at its single call site (the standalone
`parseElement` below mirrors that branch and `parseChildrenLoop_element_step`
proves the two agree).  `nodes` is the accumulator array declared at the
top of `parseChildren`; note that no branch ever appends to it.  The
result carries the final context together with the accumulator's final
value when the loop exits normally. -/
def parseChildrenLoop : Nat → Context → List PNode → List (Option PNode) →
    PRes (Context × List (Option PNode))
  | 0, _, _, _ => PRes.out
  | fuel + 1, ctx, ancestors, nodes =>
    if isEnd ctx ancestors then
      PRes.ok (ctx, nodes)
    else
      let s := ctx.source
      if startsWith s openDelimiter then
        let r := parseInterpolation ctx
        parseChildrenLoop fuel r.1 ancestors nodes
      else if charAt s 0 = some '<' then
        if charAt s 1 = some '/' then
          if jsTestLetter (charAt s 2) then
            match parseTagEnd ctx with
            | Except.error e => PRes.err e
            | Except.ok ctx1 => parseChildrenLoop fuel ctx1 ancestors nodes
          else
            parseChildrenLoop fuel ctx ancestors nodes
        else if jsTestLetter (charAt s 1) then
          match parseTagStart ctx with
          | Except.error e => PRes.err e
          | Except.ok (ctx1, element) =>
            match parseChildrenLoop fuel ctx1 (element :: ancestors) [] with
            | PRes.out => PRes.out
            | PRes.err e => PRes.err e
            | PRes.ok (ctx2, _innerNodes) =>
              if startsWithEndTagOpen ctx2.source element.tagOf then
                match parseTagEnd ctx2 with
                | Except.error e => PRes.err e
                | Except.ok ctx3 =>
                  let _node := PNode.element element.tagOf none
                  parseChildrenLoop fuel ctx3 ancestors nodes
              else
                PRes.err (ParseErr.missingClosingTag element.tagOf)
        else
          parseChildrenLoop fuel ctx ancestors nodes
      else
        parseChildrenLoop fuel ctx ancestors nodes

/-- parse.ts `parseChildren`.  The function body ends after the loop with
no return statement, so its JavaScript value is `undefined` (`none`) — the
locally accumulated `nodes` array is dropped. -/
def parseChildren (fuel : Nat) (ctx : Context) (ancestors : List PNode) :
    PRes (Context × Option (List (Option PNode))) :=
  match parseChildrenLoop fuel ctx ancestors [] with
  | PRes.out => PRes.out
  | PRes.err e => PRes.err e
  | PRes.ok (ctx1, _nodes) => PRes.ok (ctx1, none)

/-- parse.ts `parseElement`: parse the start tag, push the element on the
ancestors stack, parse children (whose value — `undefined` — becomes the
element's `children`), pop, require a matching closing tag (else throw
`MissingClosingTag`), and consume it. -/
def parseElement (fuel : Nat) (ctx : Context) (ancestors : List PNode) :
    PRes (Context × Option PNode) :=
  match parseTagStart ctx with
  | Except.error e => PRes.err e
  | Except.ok (ctx1, element) =>
    match parseChildren fuel ctx1 (element :: ancestors) with
    | PRes.out => PRes.out
    | PRes.err e => PRes.err e
    | PRes.ok (ctx2, children) =>
      if startsWithEndTagOpen ctx2.source element.tagOf then
        match parseTagEnd ctx2 with
        | Except.error e => PRes.err e
        | Except.ok ctx3 => PRes.ok (ctx3, some (PNode.element element.tagOf children))
      else
        PRes.err (ParseErr.missingClosingTag element.tagOf)

/-- The root node parse.ts `createRoot` builds: kind `ROOT`, the `children`
value it was handed (for `baseParse` that is `parseChildren`'s `undefined`),
and an empty helper list. -/
structure Root where
  type : NodeTypes
  children : Option (List (Option PNode))
  helpers : List (List Char)

/-- parse.ts `createRoot`. -/
def createRoot (children : Option (List (Option PNode))) : Root :=
  { type := NodeTypes.ROOT, children := children, helpers := [] }

/-- parse.ts `baseParse`: build a context over the whole input and wrap the
result of `parseChildren` (run with an empty ancestors stack) in a root. -/
def baseParse (fuel : Nat) (content : List Char) : PRes Root :=
  match parseChildren fuel { source := content } [] with
  | PRes.out => PRes.out
  | PRes.err e => PRes.err e
  | PRes.ok (_ctx, children) => PRes.ok (createRoot children)

/-!
## The transform pipeline (compile.ts)

compile.ts reads exactly three fields of a node: its `type` discriminant,
its `children` array (walked for `ROOT` and `ELEMENT` nodes) and its
`codegenNode`; `TNode` embeds that shape.  The runtime-helper identifier
module is not part of the given source; modelled from the spec, which names
the single identifier `TO_DISPLAY_STRING`.
-/

/-- Modelled from the spec: the one runtime-helper identifier this source
tracks (`runtimeHelper.ts` is not part of the given source). -/
inductive HelperName where
  | TO_DISPLAY_STRING
deriving DecidableEq, Repr

/-- A tree node as the transform pipeline sees it. -/
inductive TNode : Type where
  | mk (type : NodeTypes) (children : List TNode) (codegenNode : Option TNode) : TNode

/-- `node.type`. -/
def TNode.type : TNode → NodeTypes
  | .mk t _ _ => t

/-- `node.children`. -/
def TNode.children : TNode → List TNode
  | .mk _ c _ => c

/-- `node.codegenNode` (`none` for JavaScript `undefined`). -/
def TNode.codegenNode : TNode → Option TNode
  | .mk _ _ cg => cg

/-- `node.codegenNode = v`. -/
def TNode.setCodegen : TNode → Option TNode → TNode
  | .mk t c _, cg => .mk t c cg

/-- An observable event of the walk: plugin `i` was invoked on node `n`, or
the cleanup function plugin `i` returned for node `n` was executed. -/
inductive Ev : Type where
  | enter (i : Nat) (n : TNode) : Ev
  | cleanup (i : Nat) (n : TNode) : Ev

/-- The mutable part of the transform context: the helper-usage map (a
JavaScript `Map`, embedded as an association list in insertion order) and
the event log recording plugin invocations and cleanup executions. -/
structure TState where
  helpers : List (HelperName × Nat)
  log : List Ev

/-- Modelled from the spec: a node-transform plugin.  The three concrete
plugins compile.ts registers (`transformElement`, `transformText`,
`transformExpression`) are external to the given source; per the spec their
contract is "(node, context) -> optional cleanup callable", so a plugin is
embedded by which nodes it returns a cleanup for, and its invocations and
cleanups are recorded in the event log. -/
structure Plugin where
  hasCleanup : TNode → Bool

/-- The `for` loop over `context.nodeTransforms` in `traverseNode`: the
events of invoking each plugin on `node` in list order (starting at index
`i`), paired with the indices pushed onto `exitFns` — those whose plugin
returned a cleanup, in registration order. -/
def runPluginsFrom (n : TNode) : Nat → List Plugin → List Ev × List Nat
  | _, [] => ([], [])
  | i, p :: rest =>
    let r := runPluginsFrom n (i + 1) rest
    (Ev.enter i n :: r.1, if p.hasCleanup n then i :: r.2 else r.2)

/-- JavaScript `Map.get` over the association-list embedding. -/
def mapGet (m : List (HelperName × Nat)) (k : HelperName) : Option Nat :=
  match m with
  | [] => none
  | (k', v) :: rest => if k' = k then some v else mapGet rest k

/-- JavaScript `Map.set`: update the existing entry in place, else append
(preserving insertion order). -/
def mapSet (m : List (HelperName × Nat)) (k : HelperName) (v : Nat) :
    List (HelperName × Nat) :=
  match m with
  | [] => [(k, v)]
  | (k', v') :: rest => if k' = k then (k', v) :: rest else (k', v') :: mapSet rest k v

/-- compile.ts `context.helper(name)`: increment `name`'s usage count,
creating it at 1 if absent. -/
def helper (m : List (HelperName × Nat)) (name : HelperName) : List (HelperName × Nat) :=
  mapSet m name ((mapGet m name).getD 0 + 1)

mutual
/-- compile.ts `traverseNode`: run every plugin on the node in list order
(collecting the returned cleanups in `exitFns` order), then switch on the
node type — an `INTERPOLATION` registers the `TO_DISPLAY_STRING` helper, a
`ROOT` or `ELEMENT` recurses into its children, anything else does nothing —
and finally execute the collected cleanups in reverse registration order
(the `while (i--)` loop). -/
def traverseNode (ps : List Plugin) : TNode → TState → TState
  | n@(TNode.mk ty ch _cg), st =>
    let pr := runPluginsFrom n 0 ps
    let st1 : TState := { st with log := st.log ++ pr.1 }
    let st2 : TState :=
      match ty with
      | NodeTypes.INTERPOLATION =>
        { st1 with helpers := helper st1.helpers HelperName.TO_DISPLAY_STRING }
      | NodeTypes.ROOT => traverseChildren ps ch st1
      | NodeTypes.ELEMENT => traverseChildren ps ch st1
      | NodeTypes.TEXT => st1
    { st2 with log := st2.log ++ pr.2.reverse.map (fun i => Ev.cleanup i n) }

/-- compile.ts `traverseChildren`: visit every child in order. -/
def traverseChildren (ps : List Plugin) : List TNode → TState → TState
  | [], st => st
  | n :: rest, st => traverseChildren ps rest (traverseNode ps n st)
end

/-- The unguarded first-child access in `createRootCodegen`: on a root with
no children, JavaScript `children[0]` yields `undefined` and the subsequent
`child.type` read throws a TypeError — embedded as this error. -/
inductive TransformErr where
  | emptyChildren
deriving DecidableEq, Repr

/-- compile.ts `createRootCodegen`: read the first root child; if it is an
`ELEMENT` carrying a (truthy) `codegenNode`, the root's `codegenNode`
becomes that same reference, otherwise it becomes the child itself.  No
guard protects the empty-children case. -/
def createRootCodegen (root : TNode) : Except TransformErr TNode :=
  match root.children with
  | [] => Except.error TransformErr.emptyChildren
  | child :: _ =>
    if child.type = NodeTypes.ELEMENT && child.codegenNode.isSome then
      Except.ok (root.setCodegen child.codegenNode)
    else
      Except.ok (root.setCodegen (some child))

/-- What compile.ts `transform` leaves behind: the root with its assigned
`codegenNode`, the helper keys pushed into `root.helpers` (the parser
creates roots with an empty helper list, so after the push the list is
exactly the map's keys in insertion order), and the final transform-context
state. -/
structure TransformOut where
  root : TNode
  rootHelpers : List HelperName
  state : TState

/-- compile.ts `transform`: build the context (empty helper map,
`options.nodeTransforms` as the plugin list), walk the tree, compute the
root's codegen node, then copy the helper keys onto the root. -/
def transform (root : TNode) (ps : List Plugin) : Except TransformErr TransformOut :=
  let st : TState := { helpers := [], log := [] }
  let st1 := traverseNode ps root st
  match createRootCodegen root with
  | Except.error e => Except.error e
  | Except.ok root1 =>
    Except.ok { root := root1, rootHelpers := st1.helpers.map (fun q => q.1), state := st1 }

mutual
/-- The number of `INTERPOLATION` nodes the walk visits in a tree: the walk
recurses only into children of `ROOT` and `ELEMENT` nodes. -/
def visitedInterp : TNode → Nat
  | TNode.mk ty ch _ =>
    (if ty = NodeTypes.INTERPOLATION then 1 else 0) +
      (if ty = NodeTypes.ROOT || ty = NodeTypes.ELEMENT then visitedInterpList ch else 0)

/-- `visitedInterp` summed over a children list. -/
def visitedInterpList : List TNode → Nat
  | [] => 0
  | n :: rest => visitedInterp n + visitedInterpList rest
end

/-- The usage count the helper map records for `TO_DISPLAY_STRING` (0 when
the key is absent). -/
def countTDS (m : List (HelperName × Nat)) : Nat :=
  (mapGet m HelperName.TO_DISPLAY_STRING).getD 0

/-!
## Shared lemmas

General facts about the embedded definitions, shared by the claim theorems
below.
-/

/-- Induction over `TNode` with the inductive hypothesis available for every
member of the children list. -/
theorem TNode.recMem {P : TNode → Prop}
    (h : ∀ ty ch cg, (∀ n ∈ ch, P n) → P (TNode.mk ty ch cg)) : ∀ n, P n
  | TNode.mk ty ch cg => h ty ch cg (fun n _hmem => TNode.recMem h n)
termination_by n => sizeOf n
decreasing_by
  simp_wf
  have := List.sizeOf_lt_of_mem _hmem
  omega

/-- `Map.set` followed by `Map.get` at the same key. -/
theorem mapGet_mapSet (m : List (HelperName × Nat)) (k : HelperName) (v : Nat) :
    mapGet (mapSet m k v) k = some v := by
  induction m with
  | nil => simp [mapGet, mapSet]
  | cons hd tl ih =>
    obtain ⟨k', v'⟩ := hd
    by_cases hk : k' = k
    · simp [mapGet, mapSet, hk]
    · simp [mapGet, mapSet, hk, ih]

/-- `helper` increments the recorded usage count by exactly one. -/
theorem countTDS_helper (m : List (HelperName × Nat)) :
    countTDS (helper m HelperName.TO_DISPLAY_STRING) = countTDS m + 1 := by
  simp [countTDS, helper, mapGet_mapSet]

/-- `traverseChildren` adds one helper registration per interpolation node
visited in the list, given that each member node does so. -/
theorem traverseChildren_count (ps : List Plugin) (ns : List TNode)
    (H : ∀ n ∈ ns, ∀ st : TState,
      countTDS (traverseNode ps n st).helpers = countTDS st.helpers + visitedInterp n) :
    ∀ st : TState,
      countTDS (traverseChildren ps ns st).helpers
        = countTDS st.helpers + visitedInterpList ns := by
  induction ns with
  | nil => intro st; simp [traverseChildren, visitedInterpList]
  | cons n rest ih =>
    intro st
    have hn := H n (by simp)
    have hrest := ih (fun m hm => H m (by simp [hm]))
    simp [traverseChildren, visitedInterpList, hrest, hn, Nat.add_assoc]

/-- The walk registers `TO_DISPLAY_STRING` exactly once per interpolation
node it visits. -/
theorem traverseNode_count (ps : List Plugin) :
    ∀ (n : TNode) (st : TState),
      countTDS (traverseNode ps n st).helpers = countTDS st.helpers + visitedInterp n := by
  refine TNode.recMem ?_
  intro ty ch cg ih st
  cases ty with
  | ROOT =>
    simp [traverseNode, visitedInterp, traverseChildren_count ps ch ih]
  | ELEMENT =>
    simp [traverseNode, visitedInterp, traverseChildren_count ps ch ih]
  | INTERPOLATION =>
    simp [traverseNode, visitedInterp, countTDS_helper]
  | TEXT =>
    simp [traverseNode, visitedInterp]

/-- The plugin loop's invocation events, characterised: one `enter` per
plugin, in list order. -/
theorem runPluginsFrom_fst (n : TNode) :
    ∀ (ps : List Plugin) (i : Nat),
      (runPluginsFrom n i ps).1 = (List.range ps.length).map (fun k => Ev.enter (i + k) n) := by
  intro ps
  induction ps with
  | nil => intro i; simp [runPluginsFrom]
  | cons p rest ih =>
    intro i
    simp [runPluginsFrom, List.range_succ_eq_map, ih (i + 1), List.map_map]
    intro a ha
    omega

/-- The plugin loop's collected `exitFns` indices, characterised: exactly
the plugins that returned a cleanup, in registration order. -/
theorem runPluginsFrom_snd (n : TNode) :
    ∀ (ps : List Plugin) (i : Nat),
      (runPluginsFrom n i ps).2
        = ((List.enumFrom i ps).filter (fun q => q.2.hasCleanup n)).map (fun q => q.1) := by
  intro ps
  induction ps with
  | nil => intro i; simp [runPluginsFrom]
  | cons p rest ih =>
    intro i
    by_cases hp : p.hasCleanup n
    · simp [runPluginsFrom, List.enumFrom, List.filter, hp, ih (i + 1)]
    · simp [runPluginsFrom, List.enumFrom, List.filter, hp, ih (i + 1)]

/-- `traverseChildren` only appends to the event log. -/
theorem traverseChildren_log (ps : List Plugin) (ns : List TNode)
    (H : ∀ n ∈ ns, ∀ st : TState, ∃ t, (traverseNode ps n st).log = st.log ++ t) :
    ∀ st : TState, ∃ t, (traverseChildren ps ns st).log = st.log ++ t := by
  induction ns with
  | nil => intro st; exact ⟨[], by simp [traverseChildren]⟩
  | cons n rest ih =>
    intro st
    obtain ⟨t1, h1⟩ := H n (by simp) st
    obtain ⟨t2, h2⟩ := ih (fun m hm => H m (by simp [hm])) (traverseNode ps n st)
    exact ⟨t1 ++ t2, by simp [traverseChildren, h2, h1]⟩

/-- `traverseNode` only appends to the event log. -/
theorem traverseNode_log (ps : List Plugin) :
    ∀ (n : TNode) (st : TState), ∃ t, (traverseNode ps n st).log = st.log ++ t := by
  refine TNode.recMem ?_
  intro ty ch cg ih st
  cases ty with
  | ROOT =>
    obtain ⟨t, h⟩ := traverseChildren_log ps ch ih
      { st with log := st.log ++ (runPluginsFrom (TNode.mk NodeTypes.ROOT ch cg) 0 ps).1 }
    refine ⟨(runPluginsFrom (TNode.mk NodeTypes.ROOT ch cg) 0 ps).1 ++ t ++
      ((runPluginsFrom (TNode.mk NodeTypes.ROOT ch cg) 0 ps).2.reverse.map
        (fun i => Ev.cleanup i (TNode.mk NodeTypes.ROOT ch cg))), ?_⟩
    simp [traverseNode, h]
  | ELEMENT =>
    obtain ⟨t, h⟩ := traverseChildren_log ps ch ih
      { st with log := st.log ++ (runPluginsFrom (TNode.mk NodeTypes.ELEMENT ch cg) 0 ps).1 }
    refine ⟨(runPluginsFrom (TNode.mk NodeTypes.ELEMENT ch cg) 0 ps).1 ++ t ++
      ((runPluginsFrom (TNode.mk NodeTypes.ELEMENT ch cg) 0 ps).2.reverse.map
        (fun i => Ev.cleanup i (TNode.mk NodeTypes.ELEMENT ch cg))), ?_⟩
    simp [traverseNode, h]
  | INTERPOLATION =>
    refine ⟨(runPluginsFrom (TNode.mk NodeTypes.INTERPOLATION ch cg) 0 ps).1 ++
      (((runPluginsFrom (TNode.mk NodeTypes.INTERPOLATION ch cg) 0 ps).2.map
        (fun i => Ev.cleanup i (TNode.mk NodeTypes.INTERPOLATION ch cg))).reverse), ?_⟩
    simp [traverseNode]
  | TEXT =>
    refine ⟨(runPluginsFrom (TNode.mk NodeTypes.TEXT ch cg) 0 ps).1 ++
      (((runPluginsFrom (TNode.mk NodeTypes.TEXT ch cg) 0 ps).2.map
        (fun i => Ev.cleanup i (TNode.mk NodeTypes.TEXT ch cg))).reverse), ?_⟩
    simp [traverseNode]

/-- `parseChildrenLoop` never terminates on an exhausted source: `isEnd`
is false there and no branch of the loop body advances anything. -/
theorem loop_empty : ∀ (fuel : Nat) (anc : List PNode) (nodes : List (Option PNode)),
    parseChildrenLoop fuel { source := [] } anc nodes = PRes.out := by
  intro fuel
  induction fuel with
  | zero => intro anc nodes; rfl
  | succ n ih => intro anc nodes; exact ih anc nodes

/-- `parseChildren` inherits the divergence on an exhausted source. -/
theorem parseChildren_empty (fuel : Nat) (anc : List PNode) :
    parseChildren fuel { source := [] } anc = PRes.out := by
  show (match parseChildrenLoop fuel { source := [] } anc [] with
    | PRes.out => (PRes.out : PRes (Context × Option (List (Option PNode))))
    | PRes.err e => PRes.err e
    | PRes.ok (ctx1, _nodes) => PRes.ok (ctx1, none)) = PRes.out
  rw [loop_empty]

/-- `baseParse` inherits the divergence on the empty input. -/
theorem baseParse_empty (fuel : Nat) : baseParse fuel [] = PRes.out := by
  show (match parseChildren fuel { source := [] } [] with
    | PRes.out => (PRes.out : PRes Root)
    | PRes.err e => PRes.err e
    | PRes.ok (_ctx, children) => PRes.ok (createRoot children)) = PRes.out
  rw [parseChildren_empty]

/-- The loop's accumulator array is returned exactly as it was passed in:
no branch of the loop body appends to it. -/
theorem loopAcc : ∀ (fuel : Nat) (ctx : Context) (ancestors : List PNode)
    (nodes : List (Option PNode)) (res : Context × List (Option PNode)),
    parseChildrenLoop fuel ctx ancestors nodes = PRes.ok res → res.2 = nodes := by
  intro fuel
  induction fuel with
  | zero =>
    intro ctx anc nodes res h
    exact PRes.noConfusion h
  | succ n ih =>
    intro ctx anc nodes res h
    simp only [parseChildrenLoop] at h
    split at h
    · cases h; rfl
    · split at h
      · exact ih _ _ _ _ h
      · split at h
        · split at h
          · split at h
            · split at h
              · exact PRes.noConfusion h
              · exact ih _ _ _ _ h
            · exact ih _ _ _ _ h
          · split at h
            · split at h
              · exact PRes.noConfusion h
              · split at h
                · exact PRes.noConfusion h
                · exact PRes.noConfusion h
                · split at h
                  · split at h
                    · exact PRes.noConfusion h
                    · exact ih _ _ _ _ h
                  · exact PRes.noConfusion h
            · exact ih _ _ _ _ h
        · exact ih _ _ _ _ h

/-- The element branch inlined into `parseChildrenLoop` is exactly the body
of `parseElement`: whenever the loop's guards select that branch, one loop
step is `parseElement` (one fuel step down) followed by the loop
continuation. -/
theorem parseChildrenLoop_element_step (fuel : Nat) (ctx : Context) (ancestors : List PNode)
    (nodes : List (Option PNode))
    (h1 : isEnd ctx ancestors = false)
    (h2 : startsWith ctx.source openDelimiter = false)
    (h3 : charAt ctx.source 0 = some '<')
    (h4 : ¬ charAt ctx.source 1 = some '/')
    (h5 : jsTestLetter (charAt ctx.source 1) = true) :
    parseChildrenLoop (fuel + 1) ctx ancestors nodes
      = match parseElement fuel ctx ancestors with
        | PRes.out => PRes.out
        | PRes.err e => PRes.err e
        | PRes.ok (ctx3, _node) => parseChildrenLoop fuel ctx3 ancestors nodes := by
  rw [parseChildrenLoop]
  simp only [h1, h2, h3, h4, h5, Bool.false_eq_true, if_false, if_true, ite_false, ite_true,
    reduceIte]
  cases hps : parseTagStart ctx with
  | error e => simp [parseElement, hps]
  | ok p =>
    obtain ⟨ctx1, element⟩ := p
    simp only [parseElement, parseChildren, hps]
    cases hloop : parseChildrenLoop fuel ctx1 (element :: ancestors) [] with
    | out => rfl
    | err e => rfl
    | ok q =>
      obtain ⟨ctx2, innerNodes⟩ := q
      by_cases hsw : startsWithEndTagOpen ctx2.source element.tagOf = true
      · simp only [hsw, if_true, ite_true]
        cases hend : parseTagEnd ctx2 with
        | error e => rfl
        | ok ctx3 => rfl
      · simp only [hsw, if_false, ite_false, Bool.not_eq_true] at hsw ⊢
        simp [hsw]

/-- Dropping two leading marker characters out of a `jsSlice` starting at 2. -/
theorem jsSlice_two (rest : List Char) (n : Nat) :
    jsSlice ('<' :: '/' :: rest) 2 (2 + n) = rest.take n := by
  have h : (2 : Nat) + n = n + 1 + 1 := by omega
  rw [jsSlice, h]
  rfl

/-- `startsWithEndTagOpen`, characterised: the source decomposes as `"</"`,
then a span of exactly the tag's length that matches it case-insensitively,
then anything. -/
theorem swet_iff (s t : List Char) :
    startsWithEndTagOpen s t = true ↔
      ∃ u v, s = '<' :: '/' :: (u ++ v) ∧ u.length = t.length ∧ lowerList u = lowerList t := by
  constructor
  · intro h
    simp only [startsWithEndTagOpen, Bool.and_eq_true, decide_eq_true_eq] at h
    obtain ⟨h1, h2⟩ := h
    simp only [startsWith] at h1
    obtain ⟨rest, hrest⟩ := List.isPrefixOf_iff_prefix.mp h1
    rw [← hrest] at h2
    simp only [List.cons_append, List.nil_append] at h2
    rw [jsSlice_two] at h2
    have hlen : (rest.take t.length).length = t.length := by
      have := congrArg List.length h2
      simpa [lowerList] using this
    refine ⟨rest.take t.length, rest.drop t.length, ?_, hlen, h2⟩
    rw [← hrest]
    simp
  · rintro ⟨u, v, hs, hlen, hlow⟩
    subst hs
    simp only [startsWithEndTagOpen, Bool.and_eq_true, decide_eq_true_eq]
    refine ⟨by simp [startsWith, List.isPrefixOf], ?_⟩
    rw [jsSlice_two, ← hlen, List.take_left, hlow]

/-- `takeWhile` swallows a block of accepted characters whole and stops at
the first rejected one. -/
theorem takeWhile_all_append (p : Char → Bool) :
    ∀ (xs : List Char) (y : Char) (ys : List Char), xs.all p = true → p y = false →
      ((xs ++ y :: ys).takeWhile p) = xs := by
  intro xs
  induction xs with
  | nil => intro y ys _ hy; simp [List.takeWhile, hy]
  | cons x xt ih =>
    intro y ys hall hy
    simp only [List.all_cons, Bool.and_eq_true] at hall
    simp [List.takeWhile, hall.1, ih y ys hall.2 hy]

/-- The tag regular expression, on a well-formed closing tag, matches the
whole tag name (however long) plus the two marker characters. -/
theorem tagExec_endTag (c : Char) (t' ext rest : List Char)
    (hc : isAsciiLetter c = true)
    (hall : (t' ++ ext).all isTagNameChar = true) :
    tagExec ('<' :: '/' :: ((c :: t' ++ ext) ++ '>' :: rest))
      = some (2 + (c :: t' ++ ext).length, c :: t' ++ ext) := by
  have hrun : ((t' ++ ext) ++ '>' :: rest).takeWhile isTagNameChar = t' ++ ext :=
    takeWhile_all_append isTagNameChar (t' ++ ext) '>' rest hall (by rfl)
  simp only [tagExec, List.cons_append, List.append_assoc]
  simp only [List.cons_append, List.append_assoc] at hrun
  simp [hc, hrun]
  omega

/-- `parseTag` at `TagType.End` consumes the entire closing tag: the match
plus the final `>`. -/
theorem parseTagEnd_endTag (c : Char) (t' ext rest : List Char)
    (hc : isAsciiLetter c = true)
    (hall : (t' ++ ext).all isTagNameChar = true) :
    parseTagEnd { source := '<' :: '/' :: ((c :: t' ++ ext) ++ '>' :: rest) }
      = Except.ok { source := rest } := by
  rw [parseTagEnd]
  rw [tagExec_endTag c t' ext rest hc hall]
  simp only [advanceBy]
  congr 1
  simp only [List.drop_one]
  have h2 : 2 + (c :: t' ++ ext).length = (c :: t' ++ ext).length + 1 + 1 := by omega
  rw [h2]
  simp only [List.drop_succ_cons]
  rw [List.drop_left]
  rfl

/-- A prefix is no longer than the list it prefixes. -/
theorem isPrefixOf_le {pat l : List Char} (h : pat.isPrefixOf l = true) :
    pat.length ≤ l.length :=
  (List.isPrefixOf_iff_prefix.mp h).length_le

/-- What a numeric result of the `indexOf` search loop means: the start
offset is respected and the pattern occurs at the reported index. -/
theorem idxSearch_found (pat : List Char) :
    ∀ (s : List Char) (i0 j : Nat),
      idxSearch pat s i0 = (j : Int) →
      i0 ≤ j ∧ pat.isPrefixOf (s.drop (j - i0)) = true := by
  intro s
  induction s with
  | nil =>
    intro i0 j h
    simp only [idxSearch] at h
    split at h
    · rename_i hp
      have hij : i0 = j := by exact_mod_cast h
      subst hij
      simpa using hp
    · exfalso; omega
  | cons x t ih =>
    intro i0 j h
    simp only [idxSearch] at h
    split at h
    · rename_i hp
      have hij : i0 = j := by exact_mod_cast h
      subst hij
      simpa using hp
    · obtain ⟨h1, h2⟩ := ih (i0 + 1) j h
      refine ⟨by omega, ?_⟩
      have hd : (x :: t).drop (j - i0) = t.drop (j - (i0 + 1)) := by
        have hj : j - i0 = (j - (i0 + 1)) + 1 := by omega
        rw [hj, List.drop_succ_cons]
      rw [hd]
      exact h2

/-!
## The claims

One theorem per claim of the specification audit, with closed witnesses
(and, for C2, a counterexample) at concrete inputs.
-/

/-- Claim C1 (code bug): the claim says `baseParse` terminates on every
input because `isEnd` reports the end of input.  The code's `isEnd` has no
exhausted-source check: it is false on the empty source whatever the
ancestors stack holds, and `baseParse` on the empty input runs out of any
amount of fuel — the loop never stops, so `baseParse ""` diverges. -/
theorem c1_isEnd_misses_eof_baseParse_diverges :
    (∀ ancestors : List PNode, isEnd { source := [] } ancestors = false)
    ∧ (∀ fuel : Nat, baseParse fuel [] = PRes.out) := by
  refine ⟨fun ancestors => rfl, baseParse_empty⟩

/-- Claim C2, counterexample: `parseChildren` does return here (the source
starts with a closing tag matching the ancestor), but its result value is
`none` — JavaScript `undefined`, the function has no return statement — and
not the empty sequence `some []` the claim asserts. -/
theorem c2_parseChildren_returns_undefined :
    parseChildren 1 { source := "</div>".toList } [PNode.element ("div".toList) none]
      = PRes.ok ({ source := "</div>".toList }, none)
    ∧ (none : Option (List (Option PNode))) ≠ some [] := by
  refine ⟨rfl, by simp⟩

/-- Claim C2, as amended: no node produced inside the loop is ever appended
to the accumulator array (the loop returns the accumulator exactly as it
received it, so it stays empty), but `parseChildren` itself returns no
value at all — `undefined`, not an empty sequence — and a root `baseParse`
builds therefore carries `undefined` children. -/
theorem c2_accumulator_untouched_value_undefined : ∀ fuel : Nat,
    (∀ (ctx : Context) (ancestors : List PNode) (nodes : List (Option PNode))
        (res : Context × List (Option PNode)),
      parseChildrenLoop fuel ctx ancestors nodes = PRes.ok res → res.2 = nodes)
    ∧ (∀ (ctx : Context) (ancestors : List PNode)
        (res : Context × Option (List (Option PNode))),
      parseChildren fuel ctx ancestors = PRes.ok res → res.2 = none)
    ∧ (∀ (content : List Char) (root : Root),
      baseParse fuel content = PRes.ok root → root.children = none) := by
  intro fuel
  have hval : ∀ (ctx : Context) (ancestors : List PNode)
      (res : Context × Option (List (Option PNode))),
      parseChildren fuel ctx ancestors = PRes.ok res → res.2 = none := by
    intro ctx anc res h
    simp only [parseChildren] at h
    split at h
    · exact PRes.noConfusion h
    · exact PRes.noConfusion h
    · cases h; rfl
  refine ⟨loopAcc fuel, hval, ?_⟩
  intro content root h
  simp only [baseParse] at h
  split at h
  · exact PRes.noConfusion h
  · exact PRes.noConfusion h
  · rename_i ctx2 children heq
    cases h
    have h2 := hval { source := content } [] (ctx2, children) heq
    simpa [createRoot] using h2

/-- Claim C2, witness for the amended claim at a concrete input: the loop
run with a non-empty accumulator hands it back unchanged, and
`parseChildren` returns `none`. -/
theorem c2_witness :
    parseChildrenLoop 1 { source := "</div>".toList } [PNode.element ("div".toList) none]
      [some (PNode.interpolation [])]
      = PRes.ok ({ source := "</div>".toList }, [some (PNode.interpolation [])])
    ∧ ([some (PNode.interpolation [])] : List (Option PNode)) = [some (PNode.interpolation [])]
    ∧ (none : Option (List (Option PNode))) = none := by
  refine ⟨rfl, ?_, ?_⟩
  · exact (c2_accumulator_untouched_value_undefined 1).1
      { source := "</div>".toList } [PNode.element ("div".toList) none]
      [some (PNode.interpolation [])]
      ({ source := "</div>".toList }, [some (PNode.interpolation [])]) rfl
  · exact (c2_accumulator_untouched_value_undefined 1).2.1
      { source := "</div>".toList } [PNode.element ("div".toList) none]
      ({ source := "</div>".toList }, none) rfl

/-- Claim C3: when the source starts with the opener `{{` and the closer
`}}` occurs (the search from offset 2 reports index `i`),
`parseInterpolation` advances past the opener (2 characters), the raw span
(`i - 2` characters) and the closer (2 characters) — `i + 2` characters in
all, the whole interpolation site — and returns no node: its value is
`none`, the computed trimmed content discarded. -/
theorem c3_parseInterpolation_consumes_site_returns_none :
    ∀ (s : List Char) (i : Nat),
    startsWith s openDelimiter = true →
    indexOfFrom s closeDelimiter 2 = (i : Int) →
    parseInterpolation { source := s } = ({ source := s.drop (i + 2) }, none) := by
  intro s i _hsw hidx
  obtain ⟨h2i, hpre⟩ := idxSearch_found closeDelimiter (s.drop 2) 2 i hidx
  have hdd : (s.drop 2).drop (i - 2) = s.drop i := by
    rw [List.drop_drop]; congr 1; omega
  have hlen2 : 2 ≤ (s.drop i).length := by
    rw [← hdd]
    exact isPrefixOf_le hpre
  have hslen : i + 2 ≤ s.length := by
    simp only [List.length_drop] at hlen2
    omega
  have hrawlen : ((s.drop 2).take (i - 2)).length = i - 2 := by
    simp only [List.length_take, List.length_drop]
    omega
  simp only [parseInterpolation, parseTextData, advanceBy,
    (show openDelimiter.length = 2 from rfl), (show closeDelimiter.length = 2 from rfl),
    Nat.cast_ofNat, hidx]
  have htonat : ((i : Int) - 2).toNat = i - 2 := by omega
  simp only [jsSliceTo]
  rw [if_pos (by omega : (0 : Int) ≤ (i : Int) - 2), htonat, hrawlen, hdd, List.drop_drop]

/-- Claim C3, witness: on `"{{ message }}"` the closer sits at index 11 and
the whole 13-character site is consumed, no node returned. -/
theorem c3_witness :
    startsWith ("{{ message }}".toList) openDelimiter = true
    ∧ indexOfFrom ("{{ message }}".toList) closeDelimiter 2 = (11 : Int)
    ∧ parseInterpolation { source := "{{ message }}".toList }
      = ({ source := ("{{ message }}".toList).drop 13 }, none) := by
  refine ⟨rfl, rfl, ?_⟩
  exact c3_parseInterpolation_consumes_site_returns_none
    ("{{ message }}".toList) 11 rfl rfl

/-- Claim C4 (code bug): the claim says parsing `"<div>"` fails with a
MissingClosingTag error naming `"div"`.  It does not: after the opening tag
is consumed the inner `parseChildren` spins forever on the exhausted source
(`isEnd` lacks the end-of-input check), so no fuel suffices — `baseParse`
neither succeeds nor throws, and `parseElement`'s closing-tag check is
never reached. -/
theorem c4_missing_closing_tag_never_raised :
    ∀ fuel : Nat, baseParse fuel ("<div>".toList) = PRes.out := by
  intro fuel
  cases fuel with
  | zero => rfl
  | succ n =>
    have h := loop_empty n [PNode.element ("div".toList) none] []
    show (match (match (match parseChildrenLoop n { source := [] }
            [PNode.element ("div".toList) none] [] with
          | PRes.out => (PRes.out : PRes (Context × List (Option PNode)))
          | PRes.err e => PRes.err e
          | PRes.ok (ctx2, _innerNodes) =>
            if startsWithEndTagOpen ctx2.source (PNode.element ("div".toList) none).tagOf then
              match parseTagEnd ctx2 with
              | Except.error e => PRes.err e
              | Except.ok ctx3 => parseChildrenLoop n ctx3 [] []
            else
              PRes.err (ParseErr.missingClosingTag (PNode.element ("div".toList) none).tagOf)) with
        | PRes.out => (PRes.out : PRes (Context × Option (List (Option PNode))))
        | PRes.err e => PRes.err e
        | PRes.ok (ctx1, _nodes) => PRes.ok (ctx1, none)) with
      | PRes.out => (PRes.out : PRes Root)
      | PRes.err e => PRes.err e
      | PRes.ok (_ctx, children) => PRes.ok (createRoot children)) = PRes.out
    rw [h]

/-- Claim C5: `transform` (through `createRootCodegen`) on a root whose
children list is empty fails at the unguarded first-child access, whatever
the node kind, codegen annotation or plugin list. -/
theorem c5_transform_empty_children_fails :
    ∀ (ty : NodeTypes) (cg : Option TNode) (ps : List Plugin),
    createRootCodegen (TNode.mk ty [] cg) = Except.error TransformErr.emptyChildren
    ∧ transform (TNode.mk ty [] cg) ps = Except.error TransformErr.emptyChildren := by
  intro ty cg ps
  exact ⟨rfl, rfl⟩

/-- Claim C6: after a successful `transform`, the usage count the transform
context records for `TO_DISPLAY_STRING` equals the number of interpolation
nodes the walk visited, regardless of nesting depth. -/
theorem c6_helper_count_eq_interpolations :
    ∀ (ps : List Plugin) (root : TNode) (out : TransformOut),
    transform root ps = Except.ok out →
    countTDS out.state.helpers = visitedInterp root := by
  intro ps root out h
  simp only [transform] at h
  split at h
  · exact Except.noConfusion h
  · cases h
    have hc := traverseNode_count ps root { helpers := [], log := [] }
    simpa [countTDS, mapGet] using hc

/-- Claim C6, witness: a root with one interpolation child and one element
child containing another interpolation gets a recorded count of 2. -/
theorem c6_witness :
    transform (TNode.mk NodeTypes.ROOT
        [TNode.mk NodeTypes.INTERPOLATION [] none,
         TNode.mk NodeTypes.ELEMENT [TNode.mk NodeTypes.INTERPOLATION [] none] none] none) []
      = Except.ok
        { root := TNode.mk NodeTypes.ROOT
            [TNode.mk NodeTypes.INTERPOLATION [] none,
             TNode.mk NodeTypes.ELEMENT [TNode.mk NodeTypes.INTERPOLATION [] none] none]
            (some (TNode.mk NodeTypes.INTERPOLATION [] none)),
          rootHelpers := [HelperName.TO_DISPLAY_STRING],
          state := { helpers := [(HelperName.TO_DISPLAY_STRING, 2)], log := [] } }
    ∧ countTDS [(HelperName.TO_DISPLAY_STRING, 2)]
      = visitedInterp (TNode.mk NodeTypes.ROOT
        [TNode.mk NodeTypes.INTERPOLATION [] none,
         TNode.mk NodeTypes.ELEMENT [TNode.mk NodeTypes.INTERPOLATION [] none] none] none) := by
  refine ⟨rfl, ?_⟩
  exact c6_helper_count_eq_interpolations []
    (TNode.mk NodeTypes.ROOT
      [TNode.mk NodeTypes.INTERPOLATION [] none,
       TNode.mk NodeTypes.ELEMENT [TNode.mk NodeTypes.INTERPOLATION [] none] none] none)
    { root := TNode.mk NodeTypes.ROOT
        [TNode.mk NodeTypes.INTERPOLATION [] none,
         TNode.mk NodeTypes.ELEMENT [TNode.mk NodeTypes.INTERPOLATION [] none] none]
        (some (TNode.mk NodeTypes.INTERPOLATION [] none)),
      rootHelpers := [HelperName.TO_DISPLAY_STRING],
      state := { helpers := [(HelperName.TO_DISPLAY_STRING, 2)], log := [] } } rfl

/-- Claim C7: for every node, `traverseNode` invokes the registered plugins
on that node in list order — one `enter` event per plugin, indices
0, 1, … in sequence, right after the prior log — and after the structural
work (`mid`, the children traversal) executes the collected cleanups in
strictly reverse registration order: the (index-increasing) list of plugins
that returned a cleanup, reversed. -/
theorem c7_plugins_in_order_cleanups_reversed :
    ∀ (ps : List Plugin) (n : TNode) (st : TState), ∃ mid,
    (traverseNode ps n st).log
      = st.log
        ++ (List.range ps.length).map (fun i => Ev.enter i n)
        ++ mid
        ++ (((List.enumFrom 0 ps).filter (fun q => q.2.hasCleanup n)).map
            (fun q => Ev.cleanup q.1 n)).reverse := by
  intro ps n st
  obtain ⟨ty, ch, cg⟩ := n
  have hfst : (runPluginsFrom (TNode.mk ty ch cg) 0 ps).1
      = (List.range ps.length).map (fun i => Ev.enter i (TNode.mk ty ch cg)) := by
    rw [runPluginsFrom_fst]
    simp
  have hsnd : ((runPluginsFrom (TNode.mk ty ch cg) 0 ps).2.reverse.map
        (fun i => Ev.cleanup i (TNode.mk ty ch cg)))
      = (((List.enumFrom 0 ps).filter (fun q => q.2.hasCleanup (TNode.mk ty ch cg))).map
          (fun q => Ev.cleanup q.1 (TNode.mk ty ch cg))).reverse := by
    rw [runPluginsFrom_snd]
    simp [List.map_reverse, List.map_map, Function.comp]
  cases ty with
  | ROOT =>
    obtain ⟨t, ht⟩ := traverseChildren_log ps ch
      (fun m _ => traverseNode_log ps m)
      { st with log := st.log ++ (runPluginsFrom (TNode.mk NodeTypes.ROOT ch cg) 0 ps).1 }
    refine ⟨t, ?_⟩
    simp only [traverseNode]
    rw [ht]
    simp only [hfst, hsnd, List.append_assoc]
  | ELEMENT =>
    obtain ⟨t, ht⟩ := traverseChildren_log ps ch
      (fun m _ => traverseNode_log ps m)
      { st with log := st.log ++ (runPluginsFrom (TNode.mk NodeTypes.ELEMENT ch cg) 0 ps).1 }
    refine ⟨t, ?_⟩
    simp only [traverseNode]
    rw [ht]
    simp only [hfst, hsnd, List.append_assoc]
  | INTERPOLATION =>
    refine ⟨[], ?_⟩
    simp only [traverseNode, hfst, hsnd, List.append_assoc, List.append_nil, List.nil_append]
  | TEXT =>
    refine ⟨[], ?_⟩
    simp only [traverseNode, hfst, hsnd, List.append_assoc, List.append_nil, List.nil_append]

/-- Claim C8: `createRootCodegen` on a root whose first child is an
`ELEMENT` carrying a `codegenNode` assigns that very node to the root; on a
root whose first child is anything else — or an element with no
`codegenNode` — it assigns the child itself. -/
theorem c8_createRootCodegen_selection :
    ∀ (rty : NodeTypes) (rcg : Option TNode) (rest cch : List TNode)
      (ccg child : TNode),
    (createRootCodegen
        (TNode.mk rty (TNode.mk NodeTypes.ELEMENT cch (some ccg) :: rest) rcg)
      = Except.ok
        (TNode.mk rty (TNode.mk NodeTypes.ELEMENT cch (some ccg) :: rest) (some ccg)))
    ∧ ((child.type = NodeTypes.ELEMENT → child.codegenNode = none) →
      createRootCodegen (TNode.mk rty (child :: rest) rcg)
        = Except.ok (TNode.mk rty (child :: rest) (some child))) := by
  intro rty rcg rest cch ccg child
  constructor
  · rfl
  · intro h
    obtain ⟨cty, cch2, ccg2⟩ := child
    simp only [createRootCodegen, TNode.children, TNode.type, TNode.codegenNode,
      TNode.setCodegen] at h ⊢
    by_cases hty : cty = NodeTypes.ELEMENT
    · subst hty
      rw [h rfl]
      simp
    · simp [hty]

/-- Claim C8, witness: both arms at concrete trees — an element first child
with a codegen node is taken by reference; a text first child is taken as
the codegen node itself. -/
theorem c8_witness :
    createRootCodegen
        (TNode.mk NodeTypes.ROOT
          [TNode.mk NodeTypes.ELEMENT [] (some (TNode.mk NodeTypes.TEXT [] none))] none)
      = Except.ok
        (TNode.mk NodeTypes.ROOT
          [TNode.mk NodeTypes.ELEMENT [] (some (TNode.mk NodeTypes.TEXT [] none))]
          (some (TNode.mk NodeTypes.TEXT [] none)))
    ∧ createRootCodegen (TNode.mk NodeTypes.ROOT [TNode.mk NodeTypes.TEXT [] none] none)
      = Except.ok
        (TNode.mk NodeTypes.ROOT [TNode.mk NodeTypes.TEXT [] none]
          (some (TNode.mk NodeTypes.TEXT [] none))) := by
  constructor
  · exact (c8_createRootCodegen_selection NodeTypes.ROOT none [] []
      (TNode.mk NodeTypes.TEXT [] none) (TNode.mk NodeTypes.TEXT [] none)).1
  · exact (c8_createRootCodegen_selection NodeTypes.ROOT none [] []
      (TNode.mk NodeTypes.TEXT [] none) (TNode.mk NodeTypes.TEXT [] none)).2
      (fun hty => absurd hty (by decide))

/-- Claim C9: `startsWithEndTagOpen s t` is true exactly when `s` starts
with `"</"` and the `t.length` characters immediately after it equal `t`
under the case-insensitive comparison. -/
theorem c9_startsWithEndTagOpen_iff :
    ∀ (s t : List Char),
    startsWithEndTagOpen s t = true ↔
      ∃ u v, s = '<' :: '/' :: (u ++ v) ∧ u.length = t.length ∧ lowerList u = lowerList t := by
  exact swet_iff

/-- Claim C10: closing-tag matching compares only a prefix.  For an open
element with tag `c :: t'`, a source holding the closing tag of any
longer-named tag `c :: t' ++ ext` passes `startsWithEndTagOpen` (the check
`parseElement` makes), passes the `isEnd` ancestor check, and `parseTag`
then consumes the entire longer closing tag. -/
theorem c10_longer_closing_tag_accepted :
    ∀ (c : Char) (t' ext rest : List Char) (ancestors : List PNode),
    isAsciiLetter c = true →
    (t' ++ ext).all isTagNameChar = true →
    (∃ a ∈ ancestors, PNode.tagOf a = c :: t') →
    startsWithEndTagOpen ('<' :: '/' :: ((c :: t' ++ ext) ++ '>' :: rest)) (c :: t') = true
    ∧ isEnd { source := '<' :: '/' :: ((c :: t' ++ ext) ++ '>' :: rest) } ancestors = true
    ∧ parseTagEnd { source := '<' :: '/' :: ((c :: t' ++ ext) ++ '>' :: rest) }
        = Except.ok { source := rest } := by
  intro c t' ext rest ancestors hc hall hanc
  have h1 : startsWithEndTagOpen ('<' :: '/' :: ((c :: t' ++ ext) ++ '>' :: rest)) (c :: t')
      = true := by
    refine (swet_iff _ _).mpr ⟨c :: t', ext ++ '>' :: rest, ?_, rfl, rfl⟩
    simp
  refine ⟨h1, ?_, parseTagEnd_endTag c t' ext rest hc hall⟩
  obtain ⟨a, ha, hatag⟩ := hanc
  have hsw : startsWith ('<' :: '/' :: ((c :: t' ++ ext) ++ '>' :: rest)) ['<', '/'] = true := rfl
  simp only [isEnd, hsw, if_true]
  exact List.any_eq_true.mpr ⟨a, ha, by rw [hatag]; exact h1⟩

/-- Claim C10, witness: with `"div"` open, the source `"</divx>"` — the
closing tag of the longer-named `"divx"` — passes both checks and is
consumed whole. -/
theorem c10_witness :
    startsWithEndTagOpen ("</divx>".toList) ("div".toList) = true
    ∧ isEnd { source := "</divx>".toList } [PNode.element ("div".toList) none] = true
    ∧ parseTagEnd { source := "</divx>".toList } = Except.ok { source := [] } := by
  exact c10_longer_closing_tag_accepted 'd' ("iv".toList) ("x".toList) []
    [PNode.element ("div".toList) none] rfl rfl
    ⟨PNode.element ("div".toList) none, by simp, rfl⟩

end Vue
